import Mathlib

/-!
Verification of the per-node consensus core of a small proof-of-work
blockchain (petroleum supply-chain ledger).  The Python sources are shallowly
embedded below: pure functions become Lean functions, stateful methods become
explicit state passing, machine floats for wall-clock timestamps become `ℚ`,
`hashlib.sha256(..).hexdigest()` becomes the concrete `sha256hex` below, and
Python `while` loops become fuelled recursion where the loop bound is evident.
-/

/-! ## SHA-256 (embedding of `hashlib.sha256(...).hexdigest()`)

A direct implementation of FIPS 180-4 SHA-256 over a byte list, producing the
lowercase hex digest exactly as `hexdigest()` does.  Words are `ℕ` reduced
`% 2 ^ 32` wherever 32-bit overflow matters. -/

def rotr (n x : ℕ) : ℕ := ((x >>> n) ||| (x <<< (32 - n))) % 2 ^ 32

/-- The eight working variables / hash state of SHA-256. -/
structure Hash8 where
  h0 : ℕ
  h1 : ℕ
  h2 : ℕ
  h3 : ℕ
  h4 : ℕ
  h5 : ℕ
  h6 : ℕ
  h7 : ℕ

/-- The 64 SHA-256 round constants (FIPS 180-4 §4.2.2), in decimal. -/
def kConsts : List ℕ :=
  [1116352408, 1899447441, 3049323471, 3921009573, 961987163,
   1508970993, 2453635748, 2870763221, 3624381080, 310598401,
   607225278, 1426881987, 1925078388, 2162078206, 2614888103,
   3248222580, 3835390401, 4022224774, 264347078, 604807628,
   770255983, 1249150122, 1555081692, 1996064986, 2554220882,
   2821834349, 2952996808, 3210313671, 3336571891, 3584528711,
   113926993, 338241895, 666307205, 773529912, 1294757372,
   1396182291, 1695183700, 1986661051, 2177026350, 2456956037,
   2730485921, 2820302411, 3259730800, 3345764771, 3516065817,
   3600352804, 4094571909, 275423344, 430227734, 506948616,
   659060556, 883997877, 958139571, 1322822218, 1537002063,
   1747873779, 1955562222, 2024104815, 2227730452, 2361852424,
   2428436474, 2756734187, 3204031479, 3329325298]

/-- Big-endian 8-byte rendering of the message bit length. -/
def toBytes8 (n : ℕ) : List ℕ :=
  [n / 2 ^ 56 % 256, n / 2 ^ 48 % 256, n / 2 ^ 40 % 256, n / 2 ^ 32 % 256,
   n / 2 ^ 24 % 256, n / 2 ^ 16 % 256, n / 2 ^ 8 % 256, n % 256]

/-- SHA-256 padding: append 0x80, zeros to 56 mod 64, then the 64-bit length. -/
def padBytes (msg : List ℕ) : List ℕ :=
  msg ++ [128] ++ List.replicate ((119 - msg.length % 64) % 64) 0 ++ toBytes8 (8 * msg.length)

/-- Group bytes four at a time into big-endian 32-bit words. -/
def toWords : List ℕ → List ℕ
  | b0 :: b1 :: b2 :: b3 :: rest => (((b0 * 256 + b1) * 256 + b2) * 256 + b3) :: toWords rest
  | _ => []

/-- Split the padded message into 64-byte chunks. -/
def chunk64 : List ℕ → List (List ℕ)
  | [] => []
  | l@(_ :: _) => l.take 64 :: chunk64 (l.drop 64)
termination_by l => l.length
decreasing_by simp_all [List.length_drop]; omega

/-- The next word of the SHA-256 message schedule, from the 16th on. -/
def nextWord (ws : List ℕ) : ℕ :=
  let m := ws.length
  let w15 := ws.getD (m - 15) 0
  let w2 := ws.getD (m - 2) 0
  let s0 := rotr 7 w15 ^^^ rotr 18 w15 ^^^ (w15 >>> 3)
  let s1 := rotr 17 w2 ^^^ rotr 19 w2 ^^^ (w2 >>> 10)
  (ws.getD (m - 16) 0 + s0 + ws.getD (m - 7) 0 + s1) % 2 ^ 32

/-- Extend the 16 chunk words to the 64-entry message schedule. -/
def expandWords (ws : List ℕ) : List ℕ :=
  (List.range 48).foldl (fun acc _ => acc ++ [nextWord acc]) ws

/-- One SHA-256 compression round. -/
def round1 (st : Hash8) (ki wi : ℕ) : Hash8 :=
  let s1 := rotr 6 st.h4 ^^^ rotr 11 st.h4 ^^^ rotr 25 st.h4
  let ch := (st.h4 &&& st.h5) ^^^ ((st.h4 ^^^ 0xffffffff) &&& st.h6)
  let temp1 := (st.h7 + s1 + ch + ki + wi) % 2 ^ 32
  let s0 := rotr 2 st.h0 ^^^ rotr 13 st.h0 ^^^ rotr 22 st.h0
  let maj := (st.h0 &&& st.h1) ^^^ (st.h0 &&& st.h2) ^^^ (st.h1 &&& st.h2)
  let temp2 := (s0 + maj) % 2 ^ 32
  ⟨(temp1 + temp2) % 2 ^ 32, st.h0, st.h1, st.h2, (st.h3 + temp1) % 2 ^ 32, st.h4, st.h5, st.h6⟩

/-- Compress one 64-byte chunk into the running hash state. -/
def compress (H : Hash8) (chunk : List ℕ) : Hash8 :=
  let ws := expandWords (toWords chunk)
  let st := (kConsts.zip ws).foldl (fun st p => round1 st p.1 p.2) H
  ⟨(H.h0 + st.h0) % 2 ^ 32, (H.h1 + st.h1) % 2 ^ 32, (H.h2 + st.h2) % 2 ^ 32,
   (H.h3 + st.h3) % 2 ^ 32, (H.h4 + st.h4) % 2 ^ 32, (H.h5 + st.h5) % 2 ^ 32,
   (H.h6 + st.h6) % 2 ^ 32, (H.h7 + st.h7) % 2 ^ 32⟩

/-- SHA-256 initial hash value (FIPS 180-4 §5.3.3), in decimal. -/
def shaInit : Hash8 :=
  ⟨1779033703, 3144134277, 1013904242, 2773480762,
   1359893119, 2600822924, 528734635, 1541459225⟩

/-- One lowercase hex digit. -/
def hexDigit (n : ℕ) : Char := if n < 10 then Char.ofNat (48 + n) else Char.ofNat (87 + n)

/-- A 32-bit word as exactly eight lowercase hex characters. -/
def wordHex (w : ℕ) : List Char :=
  [hexDigit (w / 16 ^ 7 % 16), hexDigit (w / 16 ^ 6 % 16), hexDigit (w / 16 ^ 5 % 16),
   hexDigit (w / 16 ^ 4 % 16), hexDigit (w / 16 ^ 3 % 16), hexDigit (w / 16 ^ 2 % 16),
   hexDigit (w / 16 % 16), hexDigit (w % 16)]

/-- The 64-character hex rendering of an eight-word digest. -/
def digestHex (s : Hash8) : List Char :=
  wordHex s.h0 ++ wordHex s.h1 ++ wordHex s.h2 ++ wordHex s.h3 ++
  wordHex s.h4 ++ wordHex s.h5 ++ wordHex s.h6 ++ wordHex s.h7

/-- UTF-8 bytes of a string, as `.encode()` produces. -/
def strBytes (s : String) : List ℕ := s.toUTF8.toList.map (fun b => b.toNat)

/-- `hashlib.sha256(s.encode()).hexdigest()`. -/
def sha256hex (s : String) : String :=
  ⟨digestHex ((chunk64 (padBytes (strBytes s))).foldl compress shaInit)⟩

/-! ## core/merkle.py -/

/-- `hash_pair(a, b)`: SHA-256 of the textual concatenation of two hex strings. -/
def hash_pair (a b : String) : String := sha256hex (a ++ b)

/-- One reduction level of `merkle_root`'s `while` loop: pair adjacent
elements left to right, duplicating the last element of an odd level
(`right = left` when `i + 1` is out of range). -/
def pairUp : List String → List String
  | [] => []
  | [a] => [hash_pair a a]
  | a :: b :: rest => hash_pair a b :: pairUp rest

/-- The `while len(level) > 1` loop of `merkle_root`, fuelled: each iteration
strictly shrinks a level of length ≥ 2, so `level.length` iterations always
suffice and the fuel-exhausted arm is unreachable from `merkle_root`. -/
def rootLoop : ℕ → List String → String
  | _, [] => ""
  | _, [a] => a
  | fuel + 1, a :: b :: rest => rootLoop fuel (pairUp (a :: b :: rest))
  | 0, a :: _ :: _ => a

/-- `merkle_root(txids)`: `None` for the empty list, otherwise the iterated
pairwise hash down to a single element. -/
def merkle_root (txids : List String) : Option String :=
  if txids.isEmpty then none else some (rootLoop txids.length txids)

/-- The `while len(level) > 1` loop of `merkle_proof`, fuelled like
`rootLoop`: at each level record the sibling of `index` (its pair partner,
itself when it is an unpaired last element), then halve the index. -/
def proofLoop : ℕ → List String → ℕ → List String
  | _, [], _ => []
  | _, [_], _ => []
  | fuel + 1, a :: b :: rest, index =>
      let level := a :: b :: rest
      let pairIndex :=
        if index % 2 = 0 then (if index + 1 < level.length then index + 1 else index)
        else index - 1
      level.getD pairIndex "" :: proofLoop fuel (pairUp level) (index / 2)
  | 0, _ :: _ :: _, _ => []

/-- `merkle_proof(txids, index)`: the ordered sibling digests on the path from
leaf `index` to the root. -/
def merkle_proof (txids : List String) (index : ℕ) : List String :=
  proofLoop txids.length txids index

/-- The verifier's reconstruction described by the spec: fold the leaf with
the successive proof digests, hashing on the side given by the parity of the
index at each level and halving the index. -/
def foldProof : String → List String → ℕ → String
  | leaf, [], _ => leaf
  | leaf, s :: rest, index =>
      foldProof (if index % 2 = 0 then hash_pair leaf s else hash_pair s leaf) rest (index / 2)

/-! ## core/crypto_identity.py

secp256k1 point arithmetic and ECDSA verification.  Python integers are `ℤ`
(where subtraction may go negative) or `ℕ`; Python's `%` on a positive
modulus is `Int.emod` / `Nat.mod`.  Key generation and signing draw fresh
randomness (`secrets`) and are not needed by any claim; verification, which
the node's handlers call, is embedded in full. -/

namespace Secp

def p : ℕ := 0xFFFFFFFFFFFFFFFFFFFFFFFFFFFFFFFFFFFFFFFFFFFFFFFFFFFFFFFEFFFFFC2F

def Gx : ℕ := 55066263022277343669578718895168534326250603453777594175500187360389116729240

def Gy : ℕ := 32670510020758816978083085130507043184471273380659243275938904335757337482424

def nOrd : ℕ := 0xFFFFFFFFFFFFFFFFFFFFFFFFFFFFFFFEBAAEDCE6AF48A03BBFD25E8CD0364141

/-- `INF = (None, None)`: the point at infinity. -/
def Point := Option (ℤ × ℤ)

/-- `pow(x, -1, m)`: the modular multiplicative inverse in `[0, m)`, via the
extended gcd.  (Python raises when no inverse exists; that case is never
reached by the verification path.) -/
def mod_inv (x m : ℤ) : ℤ := Nat.gcdA ((x % m).toNat) m.toNat % m

/-- `point_add(P, Q)`: elliptic curve point addition on secp256k1. -/
def point_add : Point → Point → Point
  | none, Q => Q
  | P, none => P
  | some (x1, y1), some (x2, y2) =>
      if x1 = x2 ∧ y1 ≠ y2 then none
      else
        let lam : ℤ :=
          if x1 = x2 ∧ y1 = y2 then 3 * x1 * x1 * mod_inv (2 * y1) (p : ℤ) % (p : ℤ)
          else (y2 - y1) * mod_inv (x2 - x1) (p : ℤ) % (p : ℤ)
        let x3 := (lam * lam - x1 - x2) % (p : ℤ)
        let y3 := (lam * (x1 - x3) - y1) % (p : ℤ)
        some (x3, y3)

/-- The double-and-add `while` loop of `scalar_mult`, recursing on `k`. -/
def scalar_loop : ℕ → Point → Point → Point
  | 0, result, _ => result
  | k + 1, result, addend =>
      let k1 := k + 1
      let result1 := if k1 % 2 = 1 then point_add result addend else result
      scalar_loop (k1 / 2) result1 (point_add addend addend)
termination_by k _ _ => k
decreasing_by omega

/-- `scalar_mult(k, P)` by double-and-add, starting from `INF`. -/
def scalar_mult (k : ℕ) (P : Point) : Point := scalar_loop k none P

/-- The generator point `G`. -/
def G : Point := some ((Gx : ℤ), (Gy : ℤ))

/-- Value of a lowercase hex digit. -/
def hexVal (c : Char) : ℕ := if c.isDigit then c.toNat - 48 else c.toNat - 87

/-- `int(hexstring, 16)`. -/
def hexToNat (s : String) : ℕ := s.data.foldl (fun acc c => 16 * acc + hexVal c) 0

/-- `verify(msg, signature, pk)`: ECDSA verification of an `(r, s)` pair. -/
def verify (msg : String) (signature : ℕ × ℕ) (pk : ℕ × ℕ) : Bool :=
  let r := signature.1
  let s := signature.2
  if ¬ (1 ≤ r ∧ r < nOrd ∧ 1 ≤ s ∧ s < nOrd) then false
  else
    let z := hexToNat (sha256hex msg)
    let w := Nat.mod ((mod_inv (s : ℤ) (nOrd : ℤ)).toNat) nOrd
    let u1 := z * w % nOrd
    let u2 := r * w % nOrd
    match point_add (scalar_mult u1 G) (scalar_mult u2 (some ((pk.1 : ℤ), (pk.2 : ℤ)))) with
    | none => false
    | some (x, _) => decide (x % (nOrd : ℤ) = (r : ℤ))

/-- The last `k` characters of a string, `s[-k:]`. -/
def lastChars (s : String) (k : ℕ) : String := ⟨s.data.drop (s.data.length - k)⟩

/-- `address_from_pk(pk)`: `"0x"` plus the last four hex characters of the
SHA-256 of the concatenated decimal renderings of the two coordinates. -/
def address_from_pk (pk : ℕ × ℕ) : String :=
  "0x" ++ lastChars (sha256hex (Nat.repr pk.1 ++ Nat.repr pk.2)) 4

end Secp

/-! ## core/transaction.py -/

/-- A transaction object.  `signature` is `none` when constructed without a
secret key (the deserialisation path), matching Python's `None`. -/
structure Transaction where
  sender_pk : ℕ × ℕ
  sender_addr : String
  receiver_addr : String
  data : String
  msg : String
  signature : Option (ℕ × ℕ)
  txid : String
deriving DecidableEq

instance : Inhabited Transaction := ⟨⟨(0, 0), "", "", "", "", none, ""⟩⟩

/-- `Transaction.__init__` with `sender_sk = None` — the only constructor
path the embedded handlers exercise (`from_dict` and `_handle_tx` pass
`None`; the signing branch draws a fresh random ECDSA nonce and is outside
every claim).  Derives the sender address, the canonical message
`"{sender_addr}:{receiver_addr}:{data}"` and the txid digest. -/
def Transaction.init (sender_pk : ℕ × ℕ) (receiver_addr data : String) : Transaction :=
  let sender_addr := Secp.address_from_pk sender_pk
  let msg := sender_addr ++ ":" ++ receiver_addr ++ ":" ++ data
  { sender_pk := sender_pk, sender_addr := sender_addr, receiver_addr := receiver_addr,
    data := data, msg := msg, signature := none, txid := sha256hex msg }

/-- `Transaction.verify()`.  On a `None` signature Python raises while
unpacking `(r, s)` and the enclosing network handler drops the message; the
embedding returns `false`, which is observationally the same drop. -/
def Transaction.verify (tx : Transaction) : Bool :=
  match tx.signature with
  | some sig => Secp.verify tx.msg sig tx.sender_pk
  | none => false

/-! ## core/block.py -/

/-- A block.  Timestamps (`time.time()` floats) are embedded as `ℚ`. -/
structure Block where
  prev_hash : String
  transactions : List Transaction
  timestamp : ℚ
  merkle : Option String
  hash : String
deriving DecidableEq

/-- Python's `f"{x}"` applied to the optional Merkle root: `None` renders as
the literal string `"None"`. -/
def pyStr : Option String → String
  | none => "None"
  | some s => s

/-- Rendering of a `time.time()` float inside the hashed f-string.  The exact
digit sequence Python prints is immaterial to every claim below (no claim
compares rendered timestamps), so the embedding renders the rational
numerator and denominator. -/
def floatRepr (t : ℚ) : String := Int.repr t.num ++ "." ++ Nat.repr t.den

/-- `Block.compute_hash()`: SHA-256 of `f"{prev_hash}{merkle}{timestamp}"`.
A pure function of exactly these three fields. -/
def compute_hash (prev_hash : String) (merkle : Option String) (timestamp : ℚ) : String :=
  sha256hex (prev_hash ++ pyStr merkle ++ floatRepr timestamp)

/-- `Block.__init__(prev_hash, transactions)` at wall-clock time `now`:
computes the Merkle root of the txids (`None` when there are none) and the
block hash from the three header fields. -/
def Block.init (prev_hash : String) (txs : List Transaction) (now : ℚ) : Block :=
  let txids := txs.map (fun tx => tx.txid)
  let merkle := merkle_root txids
  { prev_hash := prev_hash, transactions := txs, timestamp := now, merkle := merkle,
    hash := compute_hash prev_hash merkle now }

instance : Inhabited Block := ⟨Block.init "0" [] 0⟩

/-- The wire form of one transaction inside a block message.  `tuple(...)`
of the two-element wire arrays is the pair itself. -/
structure TxDict where
  sender_pk : ℕ × ℕ
  receiver_addr : String
  data : String
  signature : Option (ℕ × ℕ)
  txid : String
deriving DecidableEq

/-- The wire form of a block message (`Block.to_dict()` output). -/
structure BlockDict where
  prev_hash : String
  timestamp : ℚ
  merkle : Option String
  hash : String
  transactions : List TxDict
deriving DecidableEq

/-- The per-transaction serialisation inside `Block.to_dict()`. -/
def txToWire (tx : Transaction) : TxDict :=
  { sender_pk := tx.sender_pk, receiver_addr := tx.receiver_addr, data := tx.data,
    signature := tx.signature, txid := tx.txid }

/-- `Block.to_dict()`. -/
def Block.to_dict (b : Block) : BlockDict :=
  { prev_hash := b.prev_hash, timestamp := b.timestamp, merkle := b.merkle, hash := b.hash,
    transactions := b.transactions.map txToWire }

/-- The per-transaction reconstruction inside `Block.from_dict`: build via
the constructor with no secret key, then overwrite `signature` and `txid`
with the wire values verbatim. -/
def txFromWire (t : TxDict) : Transaction :=
  let tx := Transaction.init t.sender_pk t.receiver_addr t.data
  { tx with signature := t.signature, txid := t.txid }

/-- `Block.from_dict(data)` at wall-clock time `now`: rebuild the
transactions, construct a block (which recomputes a Merkle root, a timestamp
and a hash), then overwrite `timestamp`, `hash` and `merkle` with the wire
values verbatim — no recomputation or consistency check survives. -/
def Block.from_dict (d : BlockDict) (now : ℚ) : Block :=
  let txs := d.transactions.map txFromWire
  let b := Block.init d.prev_hash txs now
  { b with timestamp := d.timestamp, hash := d.hash, merkle := d.merkle }

/-! ## core/mempool.py

The pool is a Python `dict` keyed by txid — an insertion-ordered map with
unique keys — embedded as an association list.  The per-node signing
identity and the random transaction factory draw fresh randomness; the
generated transaction is therefore an input of the embedded
`generate_local_tx`.  The mutex serialises all operations, which the
sequential embedding reflects by construction. -/

structure Mempool where
  pool : List (String × Transaction)
  max_size : ℕ
deriving DecidableEq

/-- `Mempool(node_port, max_size)`: an empty pool. -/
def Mempool.empty (max_size : ℕ) : Mempool := ⟨[], max_size⟩

/-- `Mempool.add(tx)`: reject a duplicate txid, reject when full, otherwise
append (Python dict insertion order). -/
def Mempool.add (mp : Mempool) (tx : Transaction) : Mempool × Bool :=
  if mp.pool.any (fun e => e.1 == tx.txid) then (mp, false)
  else if mp.max_size ≤ mp.pool.length then (mp, false)
  else ({ mp with pool := mp.pool ++ [(tx.txid, tx)] }, true)

/-- `Mempool.take(n)`: pop the first `n` transactions in insertion order;
the pool keeps the rest in order. -/
def Mempool.take (mp : Mempool) (n : ℕ) : List Transaction × Mempool :=
  (((mp.pool.take n).map (fun e => e.2)), { mp with pool := mp.pool.drop n })

/-- `Mempool.peek()`: a non-destructive snapshot in insertion order. -/
def Mempool.peek (mp : Mempool) : List Transaction := mp.pool.map (fun e => e.2)

/-- `Mempool.remove(txids)`: `pop(tid, None)` for each listed id — erase the
entry for the key when present, no-op otherwise. -/
def Mempool.remove (mp : Mempool) (txids : List String) : Mempool :=
  { mp with pool := txids.foldl (fun pool tid => pool.eraseP (fun e => e.1 == tid)) mp.pool }

/-- `Mempool.size()`. -/
def Mempool.size (mp : Mempool) : ℕ := mp.pool.length

/-- `Mempool.generate_local_tx()`: build one locally signed transaction (the
randomised construction is the input `tx`) and `add` it, discarding the
result. -/
def Mempool.generate_local_tx (mp : Mempool) (tx : Transaction) : Mempool := (mp.add tx).1

/-- The `for tx in txs: self.mempool.add(tx)` reinsertion loop of
`Node.mine_loop`'s abort branch. -/
def readd (mp : Mempool) (txs : List Transaction) : Mempool :=
  txs.foldl (fun p tx => (p.add tx).1) mp

/-- One mempool operation, for stating state-machine invariants over
arbitrary operation sequences. -/
inductive MpOp where
  | addTx (tx : Transaction)
  | takeN (n : ℕ)
  | peekOp
  | removeIds (ids : List String)
  | genLocal (tx : Transaction)

/-- Apply one mempool operation to the pool state. -/
def apply_op (mp : Mempool) : MpOp → Mempool
  | .addTx tx => (mp.add tx).1
  | .takeN n => (mp.take n).2
  | .peekOp => mp
  | .removeIds ids => mp.remove ids
  | .genLocal tx => mp.generate_local_tx tx

/-- Run a sequence of mempool operations from a starting state. -/
def run_ops (mp : Mempool) (ops : List MpOp) : Mempool := ops.foldl apply_op mp

/-! ## mining/pow_miner.py

The timer's real-time behaviour (sleep until the deadline, polling the abort
event every 100 ms) is embedded as a decision: `mine` receives the round's
sampled waiting time `tau` (the `random.expovariate(lam)` draw) and whether
an `abort()` arrives before the deadline.  What the code guarantees — the
event is cleared at round start, a fresh `tau` is recorded per round, the
outcome and diagnostics fields — is state that the embedding tracks
faithfully. -/

inductive MineOutcome where
  | mined
  | aborted
deriving DecidableEq

structure Miner where
  hash_power : ℚ
  interarrival : ℚ
  abort_event : Bool
  last_lambda : Option ℚ
  last_tau : Option ℚ
  last_outcome : Option MineOutcome
deriving DecidableEq

/-- `Miner.__init__`: validates `0 < hash_power ≤ 100` and
`0 < interarrival` (Python raises `ValueError` otherwise — `none` here),
then starts with a clear abort event and empty diagnostics. -/
def Miner.init (hash_power interarrival : ℚ) : Option Miner :=
  if ¬ (0 < hash_power ∧ hash_power ≤ 100) then none
  else if interarrival ≤ 0 then none
  else some ⟨hash_power, interarrival, false, none, none, none⟩

/-- `Miner.lam`: `hash_power * (1 / interarrival) / 100`. -/
def Miner.lam (m : Miner) : ℚ := m.hash_power * (1 / m.interarrival) / 100

/-- `Miner.mine()`: clear the abort event first, record the fresh `tau` and
the current `lam`, then either observe an abort before the deadline (event
set by the aborting thread, outcome `aborted`, returns `False`) or reach the
deadline (outcome `mined`, returns `True`). -/
def Miner.mine (m : Miner) (tau : ℚ) (abortDuringRound : Bool) : Miner × Bool :=
  let m1 := { m with abort_event := false, last_lambda := some m.lam, last_tau := some tau }
  if abortDuringRound then ({ m1 with abort_event := true, last_outcome := some .aborted }, false)
  else ({ m1 with last_outcome := some .mined }, true)

/-- `Miner.abort()`: set the event; thread-safe and idempotent. -/
def Miner.abort (m : Miner) : Miner := { m with abort_event := true }

/-- `k` successive `abort()` calls. -/
def abort_iter : ℕ → Miner → Miner
  | 0, m => m
  | k + 1, m => abort_iter k m.abort

/-! ## network/node.py

The node state the claims speak about: the active chain
(`self.blockchain.chain`, where `Blockchain.__init__` on a fresh store
creates the genesis block), the block index and the pending queue.  The
mempool and the miner are embedded above and are not touched by the block
handlers; sockets, gossip fan-out, persistence (`blockchain.save()`) and
logging are I/O beyond the state. -/

structure NodeState where
  chain : List Block
  block_index : List (String × Block)
  pending_queue : List Block
deriving DecidableEq

/-- `Node.__init__` on a node with an empty on-disk store: `Blockchain()`
creates the genesis block `Block("0", [])`, the index and queue start empty. -/
def Node.init (now : ℚ) : NodeState :=
  { chain := [Block.init "0" [] now], block_index := [], pending_queue := [] }

/-- Python `dict[k] = v`: replace in place when the key exists, else append. -/
def dictInsert (d : List (String × Block)) (k : String) (v : Block) : List (String × Block) :=
  if d.any (fun e => e.1 == k) then d.map (fun e => if e.1 == k then (k, v) else e)
  else d ++ [(k, v)]

/-- Python `k in dict` / `dict[k]`: the entry for a key, if any. -/
def dictGet (d : List (String × Block)) (k : String) : Option Block :=
  (d.find? (fun e => e.1 == k)).map (fun e => e.2)

/-- `self.blockchain.chain[-1].hash`.  The chain is nonempty by construction
(genesis); the default is never reached under that invariant. -/
def tip_hash (chain : List Block) : String := (chain.getLastD default).hash

/-- `Node._handle_block(message)` at local time `now`: deserialise, reject on
timestamp skew over an hour, reject on any invalid transaction signature,
otherwise insert into the block index and append to the pending queue.  (The
subsequent longer-chain check only signals `Miner.abort`, embedded above,
and touches neither the index, the queue nor the chain.) -/
def handle_block (st : NodeState) (d : BlockDict) (now : ℚ) : NodeState :=
  let block := Block.from_dict d now
  if |block.timestamp - now| > 3600 then st
  else if block.transactions.any (fun tx => ! tx.verify) then st
  else { st with block_index := dictInsert st.block_index block.hash block,
                 pending_queue := st.pending_queue ++ [block] }

/-- `Node._handle_chain_response(message)` at local time `now`: deserialise
the full chain and adopt it verbatim when strictly longer, rebuilding the
block index — with no validation of any kind. -/
def handle_chain_response (st : NodeState) (wire : List BlockDict) (now : ℚ) : NodeState :=
  let new_chain := wire.map (fun b => Block.from_dict b now)
  if st.chain.length < new_chain.length then
    { st with chain := new_chain,
              block_index := new_chain.foldl (fun idx b => dictInsert idx b.hash b) st.block_index }
  else st

/-- The `while ph in self.block_index` walk of `Node._build_fork_chain`,
fuelled: the Python loop does not terminate if the index links a hash cycle;
`index.length` steps are enough whenever it does terminate. -/
def fork_walk : ℕ → List (String × Block) → String → List Block → List Block
  | 0, _, _, acc => acc
  | fuel + 1, index, ph, acc =>
      match dictGet index ph with
      | none => acc
      | some parent =>
          if parent.prev_hash == "0" then parent :: acc
          else fork_walk fuel index parent.prev_hash (parent :: acc)

/-- `Node._build_fork_chain(tip)`: walk the index backwards from the tip,
prepending each parent, stopping at a genesis link or an unknown hash. -/
def build_fork_chain (index : List (String × Block)) (tip : Block) : List Block :=
  fork_walk index.length index tip.prev_hash [tip]

/-- One iteration of `Node.process_pending_queue`'s loop over the queue
snapshot: append a direct extension of the tip, else switch to a strictly
longer fork reconstructed through the index, else leave the block queued.
(`save()`, `broadcast_block` and the final miner reset touch only
persistence, the network and the miner.) -/
def process_one (st : NodeState) (block : Block) : NodeState :=
  if block.prev_hash == tip_hash st.chain then
    { st with chain := st.chain ++ [block],
              pending_queue := st.pending_queue.erase block }
  else if (dictGet st.block_index block.prev_hash).isSome then
    let fork := build_fork_chain st.block_index block
    if st.chain.length < fork.length then
      { st with chain := fork, pending_queue := st.pending_queue.erase block }
    else st
  else st

/-- `Node.process_pending_queue()`: fold the loop body over a snapshot of
the queue. -/
def process_pending_queue (st : NodeState) : NodeState :=
  st.pending_queue.foldl process_one st

/-- `Blockchain.create_genesis()` on an empty chain. -/
def create_genesis (now : ℚ) : List Block := [Block.init "0" [] now]

/-- The mining-success branch of `Node.mine_loop`: build a block on the hash
of the current tip (re-read at this instant) and append it. -/
def minedAppend (chain : List Block) (txs : List Transaction) (now : ℚ) : List Block :=
  chain ++ [Block.init (tip_hash chain) txs now]

/-- P2 as a predicate: each block's `prev_hash` is the previous block's
`hash`. -/
def HashLinked : List Block → Prop
  | [] => True
  | [_] => True
  | x :: y :: rest => y.prev_hash = x.hash ∧ HashLinked (y :: rest)

/-- The chain starts with a genesis link: `chain[0].prev_hash == "0"`. -/
def GenesisAnchored : List Block → Prop
  | [] => False
  | x :: _ => x.prev_hash = "0"

/-- The block index maps each key to a block whose `hash` field is that key —
true of every index the code builds, since insertion is always
`block_index[block.hash] = block`. -/
def WFIndex (d : List (String × Block)) : Prop := ∀ e ∈ d, e.2.hash = e.1

/-! ## Concrete inputs used by counterexamples and witnesses -/

/-- A wire block whose `hash` field is forged: it is not the digest of the
header fields, yet it passes every check `_handle_block` performs. -/
def forged_dict : BlockDict :=
  { prev_hash := "0", timestamp := 0, merkle := none, hash := "deadbeef", transactions := [] }

/-- A wire block whose `prev_hash` is unknown to a fresh node: it is neither
the tip hash nor an indexed hash, and it carries a valid timestamp and no
transactions. -/
def orphan_dict : BlockDict :=
  { prev_hash := "zz", timestamp := 0, merkle := none, hash := "hh", transactions := [] }

/-- First block of a wire chain that violates hash linkage. -/
def badDict1 : BlockDict :=
  { prev_hash := "0", timestamp := 0, merkle := none, hash := "h1", transactions := [] }

/-- Second block of that wire chain: its `prev_hash` is not the first
block's `hash`. -/
def badDict2 : BlockDict :=
  { prev_hash := "xx", timestamp := 0, merkle := none, hash := "h2", transactions := [] }

/-- A concrete signed transaction. -/
def txA : Transaction :=
  ⟨(0, 0), "0xaaaa", "0xbbbb", "Crude extraction report: 100 barrels", "m1", some (1, 2), "aa"⟩

/-- A second concrete signed transaction with a distinct txid. -/
def txB : Transaction :=
  ⟨(0, 0), "0xaaaa", "0xcccc", "Fuel delivery 50 liters", "m2", some (3, 4), "bb"⟩

/-- A two-entry mempool, well-formed and far below capacity. -/
def mpAB : Mempool := ⟨[("aa", txA), ("bb", txB)], 500⟩

/-- A mempool at capacity. -/
def mpFull : Mempool := ⟨[("aa", txA)], 1⟩

/-- A concrete miner state. -/
def minerM : Miner := ⟨20, 15, false, none, none, none⟩

/-- A concrete block with one signed transaction, for the round-trip
witness. -/
def blockB : Block := ⟨"00", [txA], 5, some "mm", "bh"⟩

/-- `Block.from_dict(Block.to_dict(b))`: the serialisation round trip. -/
def roundtrip (b : Block) (now : ℚ) : Block := Block.from_dict (Block.to_dict b) now

/-! ## Helper lemmas -/

/-- A SHA-256 hexdigest always has 64 characters. -/
theorem sha256hex_length (s : String) : (sha256hex s).length = 64 := by
  show (digestHex _).length = 64
  simp [digestHex, wordHex]

/-- A string whose length is not 64 is no SHA-256 hexdigest. -/
theorem ne_sha256_of_length {t : String} (h : t.length ≠ 64) (s : String) : t ≠ sha256hex s :=
  fun he => h (by rw [he, sha256hex_length])

/-- `pairUp` halves a level, rounding up. -/
theorem pairUp_length : ∀ l : List String, (pairUp l).length = (l.length + 1) / 2
  | [] => by simp [pairUp]
  | [_] => by simp [pairUp]
  | _ :: _ :: rest => by
      have ih := pairUp_length rest
      simp [pairUp, ih]
      omega

/-- The `j`-th element of a reduced level is the pair hash of elements `2j`
and `2j + 1` of the level below, the last element doubling with itself on an
odd level. -/
theorem pairUp_getD : ∀ (l : List String) (j : ℕ), 2 * j < l.length →
    (pairUp l).getD j "" =
      hash_pair (l.getD (2 * j) "")
        (if 2 * j + 1 < l.length then l.getD (2 * j + 1) "" else l.getD (2 * j) "")
  | [], j, h => by simp at h
  | [a], j, h => by
      have hj : j = 0 := by simp at h; omega
      subst hj
      simp [pairUp]
  | a :: b :: rest, 0, h => by
      have hc : 2 * 0 + 1 < (a :: b :: rest).length := by simp
      rw [if_pos hc]
      simp [pairUp]
  | a :: b :: rest, j + 1, h => by
      have h' : 2 * j < rest.length := by simp at h; omega
      have ih := pairUp_getD rest j h'
      have e1 : 2 * (j + 1) = 2 * j + 1 + 1 := by ring
      rw [e1]
      simp only [pairUp, List.getD_cons_succ, List.length_cons]
      rw [ih]
      by_cases hlt : 2 * j + 1 < rest.length
      · rw [if_pos hlt, if_pos (by omega)]
      · rw [if_neg hlt, if_neg (by omega)]

/-- Unfolding of one `proofLoop` level. -/
theorem proofLoop_cons (fuel : ℕ) (a b : String) (rest : List String) (i : ℕ) :
    proofLoop (fuel + 1) (a :: b :: rest) i =
      (a :: b :: rest).getD
          (if i % 2 = 0 then (if i + 1 < (a :: b :: rest).length then i + 1 else i) else i - 1)
          "" ::
        proofLoop fuel (pairUp (a :: b :: rest)) (i / 2) := by
  simp [proofLoop]

/-- Unfolding of one `rootLoop` level. -/
theorem rootLoop_cons (fuel : ℕ) (a b : String) (rest : List String) :
    rootLoop (fuel + 1) (a :: b :: rest) = rootLoop fuel (pairUp (a :: b :: rest)) := by
  simp [rootLoop]

/-- Folding the proof reproduces the root, level by level: the invariant of
the simultaneous `merkle_proof` / `merkle_root` loops. -/
theorem reconstruct : ∀ (fuel : ℕ) (l : List String) (i : ℕ), l.length ≤ fuel → i < l.length →
    foldProof (l.getD i "") (proofLoop fuel l i) i = rootLoop fuel l
  | 0, l, i, hf, hi => by
      have : l = [] := List.eq_nil_of_length_eq_zero (Nat.le_zero.mp hf)
      subst this
      simp at hi
  | fuel + 1, [], i, _, hi => by simp at hi
  | fuel + 1, [a], i, _, hi => by
      have : i = 0 := by simp at hi; omega
      subst this
      simp [proofLoop, foldProof, rootLoop]
  | fuel + 1, a :: b :: rest, i, hf, hi => by
      have hlen : (pairUp (a :: b :: rest)).length = ((a :: b :: rest).length + 1) / 2 :=
        pairUp_length _
      have hn : (a :: b :: rest).length = rest.length + 2 := by simp
      have h1 : (pairUp (a :: b :: rest)).length ≤ fuel := by
        rw [hlen, hn]
        rw [hn] at hf
        omega
      have h2 : i / 2 < (pairUp (a :: b :: rest)).length := by
        rw [hlen, hn]
        rw [hn] at hi
        omega
      have ih := reconstruct fuel (pairUp (a :: b :: rest)) (i / 2) h1 h2
      rw [proofLoop_cons, rootLoop_cons, ← ih]
      show foldProof _ (_ :: _) _ = _
      rw [foldProof]
      congr 1
      by_cases hpar : i % 2 = 0
      · have h2i : 2 * (i / 2) = i := by omega
        have hpg := pairUp_getD (a :: b :: rest) (i / 2) (by omega)
        rw [h2i] at hpg
        rw [if_pos hpar, if_pos hpar, hpg]
        by_cases hlt : i + 1 < (a :: b :: rest).length
        · rw [if_pos hlt, if_pos hlt]
        · rw [if_neg hlt, if_neg hlt]
      · have h2i : 2 * (i / 2) = i - 1 := by omega
        have h2i1 : 2 * (i / 2) + 1 = i := by omega
        have hpg := pairUp_getD (a :: b :: rest) (i / 2) (by omega)
        rw [h2i1] at hpg
        rw [h2i] at hpg
        rw [if_neg hpar, if_neg hpar, hpg, if_pos hi]

/-! ## Claim C5 -/

/-- Claim C5 (counterexample): `merkle_root` over the single-element list
`["a"]` is not the pair-hash of `"a"` with itself — the loop body never runs
on a length-1 level, so the leaf itself is returned, and a one-character
string cannot be a 64-character digest. -/
theorem c5_counterexample : merkle_root ["a"] ≠ some (hash_pair "a" "a") := by
  have h1 : merkle_root ["a"] = some "a" := by simp [merkle_root, rootLoop]
  rw [h1]
  intro h
  exact ne_sha256_of_length (t := "a") (by decide) ("a" ++ "a") (Option.some.inj h)

/-- Claim C5 (corrected): `merkle_root` over a single-element list returns
the element itself — the `while len(level) > 1` loop body is never entered. -/
theorem c5_amended (x : String) : merkle_root [x] = some x := by
  simp [merkle_root, rootLoop]

/-! ## Claim C6 -/

/-- Claim C6 (confirmed): for every non-empty txid list and every in-range
index, folding the leaf through the sibling digests of `merkle_proof` —
pair-hashing on the side given by the index's parity at each level and
halving the index, exactly the odd-duplication rule — reconstructs
`merkle_root`. -/
theorem c6_proof_reconstructs_root (txids : List String) (i : ℕ)
    (hne : txids ≠ []) (hi : i < txids.length) :
    merkle_root txids = some (foldProof (txids.getD i "") (merkle_proof txids i) i) := by
  have hF : txids.isEmpty = false := by
    cases txids with
    | nil => exact absurd rfl hne
    | cons a l => rfl
  unfold merkle_root merkle_proof
  rw [if_neg (by simp [hF])]
  exact congrArg some (reconstruct txids.length txids i le_rfl hi).symm

/-- Claim C6 witness: the reconstruction at the concrete list
`["a", "b", "c"]` and index 2 (the odd-duplicated tail position). -/
theorem c6_witness :
    merkle_root ["a", "b", "c"] =
      some (foldProof (["a", "b", "c"].getD 2 "") (merkle_proof ["a", "b", "c"] 2) 2) :=
  c6_proof_reconstructs_root ["a", "b", "c"] 2 (by decide) (by decide)

/-! ## Claim C1 -/

/-- Claim C1 (corrected): a locally constructed block's `hash` is the SHA-256
digest of the concatenation of its `prev_hash`, its (rendered) Merkle field
and its rendered timestamp, and `compute_hash` is a pure function of exactly
those three fields — two blocks agreeing on them get the same hash.  But
`Block.from_dict` copies the wire `hash`, `merkle` and `timestamp` fields
verbatim, so the equation is not re-established for blocks admitted from the
network (see the counterexample). -/
theorem c1_amended :
    (∀ (ph : String) (txs : List Transaction) (now : ℚ),
        (Block.init ph txs now).hash =
          sha256hex ((Block.init ph txs now).prev_hash ++
            pyStr (Block.init ph txs now).merkle ++
            floatRepr (Block.init ph txs now).timestamp)) ∧
    (∀ b b' : Block, b.prev_hash = b'.prev_hash → b.merkle = b'.merkle →
        b.timestamp = b'.timestamp →
        compute_hash b.prev_hash b.merkle b.timestamp =
          compute_hash b'.prev_hash b'.merkle b'.timestamp) ∧
    (∀ (d : BlockDict) (now : ℚ),
        (Block.from_dict d now).hash = d.hash ∧
        (Block.from_dict d now).merkle = d.merkle ∧
        (Block.from_dict d now).timestamp = d.timestamp) := by
  refine ⟨?_, ?_, ?_⟩
  · intro ph txs now
    simp [Block.init, compute_hash]
  · intro b b' h1 h2 h3
    rw [h1, h2, h3]
  · intro d now
    refine ⟨?_, ?_, ?_⟩ <;> simp [Block.from_dict]

/-- Claim C1 witness: the constructor equation and determinism at concrete
inputs. -/
theorem c1_witness :
    (Block.init "0" [] 7).hash =
      sha256hex ((Block.init "0" [] 7).prev_hash ++ pyStr (Block.init "0" [] 7).merkle ++
        floatRepr (Block.init "0" [] 7).timestamp) ∧
    compute_hash blockB.prev_hash blockB.merkle blockB.timestamp =
      compute_hash blockB.prev_hash blockB.merkle blockB.timestamp :=
  ⟨c1_amended.1 "0" [] 7, c1_amended.2.1 blockB blockB rfl rfl rfl⟩

/-- Claim C1 (counterexample): a block whose wire `hash` field is the
8-character string `"deadbeef"` — not the digest of its header — passes
`_handle_block` validation on a fresh node (timestamp in range, no
transactions) and is admitted to the pending queue, violating the claimed
invariant for network-admitted blocks. -/
theorem c1_counterexample :
    (handle_block (Node.init 0) forged_dict 0).pending_queue = [Block.from_dict forged_dict 0] ∧
    (Block.from_dict forged_dict 0).hash ≠
      sha256hex ((Block.from_dict forged_dict 0).prev_hash ++
        pyStr (Block.from_dict forged_dict 0).merkle ++
        floatRepr (Block.from_dict forged_dict 0).timestamp) := by
  constructor
  · have hif : ¬ ((3600 : ℚ) < 0) := by norm_num
    simp [handle_block, Node.init, forged_dict, Block.from_dict, Block.init, Transaction.verify,
      hif]
  · have hh : (Block.from_dict forged_dict 0).hash = "deadbeef" := by
      simp [Block.from_dict, forged_dict]
    rw [hh]
    exact ne_sha256_of_length (by decide) _

/-! ## Claim C2 -/

/-- Claim C2 (code bug): a block whose `prev_hash` (`"zz"`, two characters,
so no digest) neither equals the fresh node's tip hash nor appears in its
(empty) block index, yet passes the timestamp and signature checks, is NOT
dropped by `_handle_block`: the code inserts it into the block index and
appends it to the pending queue, contradicting the claim, the function's own
docstring and spec §4.5. -/
theorem c2_orphan_admitted :
    orphan_dict.prev_hash ≠ tip_hash (Node.init 0).chain ∧
    dictGet (Node.init 0).block_index orphan_dict.prev_hash = none ∧
    (handle_block (Node.init 0) orphan_dict 0).pending_queue = [Block.from_dict orphan_dict 0] ∧
    dictGet (handle_block (Node.init 0) orphan_dict 0).block_index "hh" =
      some (Block.from_dict orphan_dict 0) := by
  refine ⟨?_, ?_, ?_, ?_⟩
  · have ht : tip_hash (Node.init 0).chain = compute_hash "0" (merkle_root []) 0 := by
      simp [tip_hash, Node.init, Block.init]
    rw [ht]
    have ho : orphan_dict.prev_hash = "zz" := rfl
    rw [ho]
    unfold compute_hash
    exact ne_sha256_of_length (by decide) _
  · rfl
  · have hif : ¬ ((3600 : ℚ) < 0) := by norm_num
    simp [handle_block, Node.init, orphan_dict, Block.from_dict, Block.init, Transaction.verify,
      hif]
  · have hif : ¬ ((3600 : ℚ) < 0) := by norm_num
    simp [handle_block, Node.init, orphan_dict, Block.from_dict, Block.init, Transaction.verify,
      dictInsert, dictGet, List.find?, hif]

/-! ## Claim C3 helper lemmas -/

/-- Appending a block whose `prev_hash` is the tip hash preserves linkage. -/
theorem hashLinked_snoc : ∀ (chain : List Block) (b : Block), HashLinked chain →
    b.prev_hash = tip_hash chain → HashLinked (chain ++ [b])
  | [], b, _, _ => by simp [HashLinked]
  | [a], b, _, hb => by
      simp only [List.cons_append, List.nil_append, HashLinked]
      exact ⟨by simpa [tip_hash, List.getLastD] using hb, trivial⟩
  | a :: c :: rest, b, h, hb => by
      simp only [HashLinked] at h
      have htip : tip_hash (a :: c :: rest) = tip_hash (c :: rest) := by
        simp [tip_hash, List.getLastD_cons]
      have ih := hashLinked_snoc (c :: rest) b h.2 (by rw [hb, htip])
      simp only [List.cons_append, HashLinked]
      exact ⟨h.1, by simpa using ih⟩

/-- Appending anything to a non-empty chain keeps its genesis anchor. -/
theorem anchored_append (chain l : List Block) (h : GenesisAnchored chain) :
    GenesisAnchored (chain ++ l) := by
  cases chain with
  | nil => exact absurd h (by simp [GenesisAnchored])
  | cons x rest => simpa [GenesisAnchored] using h

/-- A hit in a well-formed index returns a block whose `hash` is the key. -/
theorem wf_dictGet {d : List (String × Block)} (hwf : WFIndex d) {k : String} {b : Block}
    (h : dictGet d k = some b) : b.hash = k := by
  unfold dictGet at h
  rcases Option.map_eq_some'.mp h with ⟨e, he, hsnd⟩
  have hk : e.1 = k := by
    have := List.find?_some he
    simpa using this
  have hm : e ∈ d := List.mem_of_find?_eq_some he
  rw [← hsnd, ← hk]
  exact hwf e hm

/-- The fork walk only prepends index parents, each of whose `hash` is the
hash the walk was following, so it preserves linkage of the accumulator. -/
theorem fork_walk_linked : ∀ (fuel : ℕ) (index : List (String × Block)) (h : Block)
    (tl : List Block), WFIndex index → HashLinked (h :: tl) →
    HashLinked (fork_walk fuel index h.prev_hash (h :: tl))
  | 0, _, _, _, _, hl => hl
  | fuel + 1, index, h, tl, hwf, hl => by
      show HashLinked (fork_walk (fuel + 1) index h.prev_hash (h :: tl))
      rw [fork_walk]
      cases hg : dictGet index h.prev_hash with
      | none => exact hl
      | some parent =>
          have hph : parent.hash = h.prev_hash := wf_dictGet hwf hg
          have hlp : HashLinked (parent :: h :: tl) := by
            simp only [HashLinked]
            exact ⟨hph.symm, hl⟩
          by_cases hz : parent.prev_hash = "0"
          · simp only [hz]
            simp [hlp]
          · have hb : (parent.prev_hash == "0") = false := by
              simpa using hz
            simp only [hb]
            simpa using fork_walk_linked fuel index parent (h :: tl) hwf hlp

/-- A reconstructed fork chain is hash linked whenever the index is
well-formed. -/
theorem build_fork_linked (index : List (String × Block)) (tip : Block)
    (hwf : WFIndex index) : HashLinked (build_fork_chain index tip) :=
  fork_walk_linked index.length index tip [] hwf (by simp [HashLinked])

/-- `process_one` never touches the block index. -/
theorem process_one_index (st : NodeState) (b : Block) :
    (process_one st b).block_index = st.block_index := by
  simp only [process_one]
  split
  · rfl
  · split
    · split
      · rfl
      · rfl
    · rfl

/-- `process_one` preserves hash linkage of the active chain (both the
direct-extension branch and the fork-replacement branch). -/
theorem process_one_linked (st : NodeState) (b : Block) (h : HashLinked st.chain)
    (hwf : WFIndex st.block_index) : HashLinked (process_one st b).chain := by
  simp only [process_one]
  split
  · next hdir =>
      have : b.prev_hash = tip_hash st.chain := by simpa using hdir
      simpa using hashLinked_snoc st.chain b h this
  · split
    · split
      · next => simpa using build_fork_linked st.block_index b hwf
      · exact h
    · exact h

/-- The full queue processor preserves hash linkage (the index is left
untouched by `process_one`, so well-formedness carries through the fold). -/
theorem process_queue_linked (st : NodeState) (h : HashLinked st.chain)
    (hwf : WFIndex st.block_index) : HashLinked (process_pending_queue st).chain := by
  unfold process_pending_queue
  generalize st.pending_queue = q
  induction q generalizing st with
  | nil => simpa using h
  | cons b q ih =>
      simp only [List.foldl_cons]
      exact ih (process_one st b) (process_one_linked st b h hwf)
        (by rw [process_one_index]; exact hwf)

/-! ## Claim C3 -/

/-- Claim C3 (corrected): hash linkage (`chain[i].prev_hash = chain[i-1].hash`)
together with the genesis anchor (`chain[0].prev_hash = "0"`) holds of the
created genesis chain and is preserved by mining a block and by the queue
processor's direct extension; the queue processor's fork replacement and the
whole queue drain preserve the linkage equations whenever the block index
maps each key to a block carrying that hash.  Chain-sync adoption is absent
from this list: it copies the received chain verbatim with no check and can
break the invariant (see the counterexample). -/
theorem c3_amended :
    (∀ now : ℚ, HashLinked (create_genesis now) ∧ GenesisAnchored (create_genesis now)) ∧
    (∀ (chain : List Block) (txs : List Transaction) (now : ℚ), HashLinked chain →
        HashLinked (minedAppend chain txs now) ∧
          (GenesisAnchored chain → GenesisAnchored (minedAppend chain txs now))) ∧
    (∀ (st : NodeState) (b : Block), HashLinked st.chain → WFIndex st.block_index →
        HashLinked (process_one st b).chain ∧
          (GenesisAnchored st.chain → b.prev_hash = tip_hash st.chain →
            GenesisAnchored (process_one st b).chain)) ∧
    (∀ st : NodeState, HashLinked st.chain → WFIndex st.block_index →
        HashLinked (process_pending_queue st).chain) := by
  refine ⟨?_, ?_, ?_, ?_⟩
  · intro now
    constructor
    · simp [create_genesis, HashLinked]
    · simp [create_genesis, GenesisAnchored, Block.init]
  · intro chain txs now h
    constructor
    · exact hashLinked_snoc chain (Block.init (tip_hash chain) txs now) h (by simp [Block.init])
    · intro ha
      exact anchored_append chain _ ha
  · intro st b h hwf
    refine ⟨process_one_linked st b h hwf, ?_⟩
    intro ha hb
    simp only [process_one]
    rw [if_pos (by simpa using hb)]
    simpa using anchored_append st.chain [b] ha
  · intro st h hwf
    exact process_queue_linked st h hwf

/-- Claim C3 witness: a mined block on the fresh genesis chain keeps the
chain hash linked. -/
theorem c3_witness : HashLinked (minedAppend (create_genesis 0) [] 1) :=
  (c3_amended.2.1 (create_genesis 0) [] 1 (by simp [create_genesis, HashLinked])).1

/-- Claim C3 (counterexample): chain-sync adoption is claimed to preserve
hash linkage, but `_handle_chain_response` adopts any strictly longer wire
chain verbatim: a fresh node handed the two-block wire chain
`[badDict1, badDict2]` — where the second block's `prev_hash` (`"xx"`) is
not the first block's `hash` (`"h1"`) — ends with a chain violating P2. -/
theorem c3_counterexample :
    HashLinked (Node.init 0).chain ∧
    ¬ HashLinked (handle_chain_response (Node.init 0) [badDict1, badDict2] 0).chain := by
  constructor
  · simp [Node.init, HashLinked]
  · intro hcontra
    have hc : (handle_chain_response (Node.init 0) [badDict1, badDict2] 0).chain =
        [Block.from_dict badDict1 0, Block.from_dict badDict2 0] := by
      simp [handle_chain_response, Node.init]
    rw [hc] at hcontra
    simp only [HashLinked] at hcontra
    have h2 : (Block.from_dict badDict2 0).prev_hash = "xx" := by
      simp [Block.from_dict, Block.init, badDict2]
    have h1 : (Block.from_dict badDict1 0).hash = "h1" := by
      simp [Block.from_dict, badDict1]
    rw [h1, h2] at hcontra
    exact absurd hcontra.1 (by decide)

/-! ## Claim C4 helper lemma -/

/-- Re-adding entries whose keys are fresh and which fit under capacity
appends them, in order, to the pool. -/
theorem readd_append : ∀ (B : List (String × Transaction)) (mp : Mempool),
    (∀ e ∈ B, e.1 = e.2.txid) →
    ((mp.pool ++ B).map Prod.fst).Nodup →
    (mp.pool ++ B).length ≤ mp.max_size →
    readd mp (B.map Prod.snd) = { pool := mp.pool ++ B, max_size := mp.max_size }
  | [], mp, _, _, _ => by simp [readd]
  | e :: B, mp, hwf, hnd, hsz => by
      have hkey : e.1 = e.2.txid := hwf e (by simp)
      have hnotmem : e.1 ∉ mp.pool.map Prod.fst := by
        rw [List.map_append, List.nodup_append] at hnd
        intro hc
        exact hnd.2.2 hc (by simp)
      have hany : mp.pool.any (fun x => x.1 == e.2.txid) = false := by
        refine List.any_eq_false.mpr ?_
        intro x hx
        simp only [beq_iff_eq]
        intro hxe
        exact hnotmem (by
          rw [hkey, ← hxe]
          exact List.mem_map_of_mem Prod.fst hx)
      have hlen : ¬ (mp.max_size ≤ mp.pool.length) := by
        simp only [List.length_append, List.length_cons] at hsz
        omega
      have hadd : mp.add e.2 = ({ mp with pool := mp.pool ++ [(e.2.txid, e.2)] }, true) := by
        simp [Mempool.add, hany, hlen]
      have hpair : (e.2.txid, e.2) = e := by
        rw [← hkey]
      have ih := readd_append B { pool := mp.pool ++ [e], max_size := mp.max_size }
        (fun x hx => hwf x (by simp [hx]))
        (by simpa [List.append_assoc] using hnd)
        (by simpa [List.append_assoc] using hsz)
      calc readd mp ((e :: B).map Prod.snd)
          = readd { mp with pool := mp.pool ++ [(e.2.txid, e.2)] } (B.map Prod.snd) := by
            simp [readd, hadd]
        _ = readd { pool := mp.pool ++ [e], max_size := mp.max_size } (B.map Prod.snd) := by
            rw [hpair]
        _ = { pool := (mp.pool ++ [e]) ++ B, max_size := mp.max_size } := ih
        _ = { pool := mp.pool ++ e :: B, max_size := mp.max_size } := by
            simp [List.append_assoc]

/-! ## Claim C4 -/

/-- Claim C4 (confirmed): when a mining round aborts, the `for tx in txs:
mempool.add(tx)` loop (embedded as `readd`) returns every drafted
transaction to the pool in its original relative order: afterwards `peek()`
is exactly the transactions that stayed in the pool, followed by the drafted
transactions, none lost.  The hypotheses are the pool representation
invariants the code maintains: keys are the transactions' txids, keys are
unique, and the pool is within capacity. -/
theorem c4_abort_reinserts (mp : Mempool) (n : ℕ)
    (hwf : ∀ e ∈ mp.pool, e.1 = e.2.txid)
    (hnd : (mp.pool.map Prod.fst).Nodup)
    (hsz : mp.pool.length ≤ mp.max_size) :
    Mempool.peek (readd (mp.take n).2 (mp.take n).1) =
      Mempool.peek (mp.take n).2 ++ (mp.take n).1 := by
  have hperm : (mp.pool.drop n ++ mp.pool.take n).Perm mp.pool := by
    have h1 : (mp.pool.drop n ++ mp.pool.take n).Perm (mp.pool.take n ++ mp.pool.drop n) :=
      List.perm_append_comm
    rw [List.take_append_drop] at h1
    exact h1
  have key := readd_append (mp.pool.take n)
    { pool := mp.pool.drop n, max_size := mp.max_size }
    (fun e he => hwf e (List.take_subset n mp.pool he))
    (by
      have := hnd
      exact ((hperm.map Prod.fst).nodup_iff).mpr this)
    (by
      have hl := hperm.length_eq
      dsimp only
      omega)
  show Mempool.peek (readd { pool := mp.pool.drop n, max_size := mp.max_size }
      ((mp.pool.take n).map Prod.snd)) = _
  rw [key]
  simp [Mempool.peek, Mempool.take]

/-- Claim C4 witness: taking one of two pooled transactions and re-adding it
after an abort leaves `peek()` as the untouched transaction followed by the
drafted one. -/
theorem c4_witness :
    Mempool.peek (readd (mpAB.take 1).2 (mpAB.take 1).1) =
      Mempool.peek (mpAB.take 1).2 ++ (mpAB.take 1).1 :=
  c4_abort_reinserts mpAB 1 (by decide) (by decide) (by decide)

/-! ## Claim C7 -/

/-- Claim C7 (confirmed): `Mempool.add` returns `True` exactly when the txid
is absent from the pool and the pool is strictly below capacity; in both
failure cases (duplicate txid, full pool) it returns `False` and leaves the
pool exactly as it was — a full pool never drops entries on a rejected add. -/
theorem c7_add_contract (mp : Mempool) (tx : Transaction) :
    ((mp.add tx).2 = true ↔
      ((∀ e ∈ mp.pool, e.1 ≠ tx.txid) ∧ mp.pool.length < mp.max_size)) ∧
    ((mp.add tx).2 = false → (mp.add tx).1 = mp) := by
  unfold Mempool.add
  by_cases h1 : mp.pool.any (fun e => e.1 == tx.txid)
  · rw [if_pos h1]
    refine ⟨⟨fun hc => absurd hc (by simp), ?_⟩, fun _ => rfl⟩
    rintro ⟨habs, -⟩
    rw [List.any_eq_true] at h1
    obtain ⟨e, he, hbeq⟩ := h1
    exact absurd (by simpa using hbeq) (habs e he)
  · rw [if_neg h1]
    by_cases h2 : mp.max_size ≤ mp.pool.length
    · rw [if_pos h2]
      refine ⟨⟨fun hc => absurd hc (by simp), ?_⟩, fun _ => rfl⟩
      rintro ⟨-, hlt⟩
      omega
    · rw [if_neg h2]
      refine ⟨⟨fun _ => ⟨?_, by omega⟩, fun _ => rfl⟩, fun hc => absurd hc (by simp)⟩
      intro e he hc
      apply h1
      rw [List.any_eq_true]
      exact ⟨e, he, by simp [hc]⟩

/-- Claim C7 witness: adding a fresh transaction to a full pool returns it
unchanged. -/
theorem c7_witness : (mpFull.add txB).1 = mpFull :=
  (c7_add_contract mpFull txB).2 (by decide)

/-! ## Claim C10 helper lemmas -/

/-- The `remove` loop never lengthens the pool. -/
theorem remove_pool_le : ∀ (ids : List String) (pool : List (String × Transaction)),
    (ids.foldl (fun p tid => p.eraseP (fun e => e.1 == tid)) pool).length ≤ pool.length
  | [], _ => le_rfl
  | tid :: ids, pool => by
      simp only [List.foldl_cons]
      exact le_trans (remove_pool_le ids _) (List.eraseP_sublist pool).length_le

/-- Every single operation keeps the pool within capacity and leaves the
capacity itself unchanged. -/
theorem apply_op_size (mp : Mempool) (op : MpOp) (h : mp.pool.length ≤ mp.max_size) :
    (apply_op mp op).pool.length ≤ (apply_op mp op).max_size ∧
    (apply_op mp op).max_size = mp.max_size := by
  cases op with
  | addTx tx =>
      simp only [apply_op, Mempool.add]
      split
      · exact ⟨h, rfl⟩
      · split
        · exact ⟨h, rfl⟩
        · next h2 =>
            refine ⟨?_, rfl⟩
            simp only [List.length_append, List.length_cons, List.length_nil]
            omega
  | takeN n =>
      refine ⟨?_, rfl⟩
      show (mp.pool.drop n).length ≤ mp.max_size
      rw [List.length_drop]
      omega
  | peekOp => exact ⟨h, rfl⟩
  | removeIds ids =>
      refine ⟨?_, rfl⟩
      exact le_trans (remove_pool_le ids mp.pool) h
  | genLocal tx =>
      simp only [apply_op, Mempool.generate_local_tx, Mempool.add]
      split
      · exact ⟨h, rfl⟩
      · split
        · exact ⟨h, rfl⟩
        · next h2 =>
            refine ⟨?_, rfl⟩
            simp only [List.length_append, List.length_cons, List.length_nil]
            omega

/-! ## Claim C10 -/

/-- Claim C10 (confirmed): starting from an empty pool, no sequence of
`add` / `take` / `peek` / `remove` / `generate_local_tx` operations ever
pushes the pool size above `max_size`, and `take` and `remove` never
increase the size. -/
theorem c10_capacity_invariant :
    (∀ (max : ℕ) (ops : List MpOp), (run_ops (Mempool.empty max) ops).pool.length ≤ max) ∧
    (∀ (mp : Mempool) (n : ℕ), ((mp.take n).2).pool.length ≤ mp.pool.length) ∧
    (∀ (mp : Mempool) (ids : List String), (mp.remove ids).pool.length ≤ mp.pool.length) := by
  refine ⟨?_, ?_, ?_⟩
  · have main : ∀ (ops : List MpOp) (mp : Mempool), mp.pool.length ≤ mp.max_size →
        (run_ops mp ops).pool.length ≤ (run_ops mp ops).max_size ∧
        (run_ops mp ops).max_size = mp.max_size := by
      intro ops
      induction ops with
      | nil => exact fun mp h => ⟨h, rfl⟩
      | cons op ops ih =>
          intro mp h
          have h1 := apply_op_size mp op h
          have h2 := ih (apply_op mp op) h1.1
          refine ⟨?_, ?_⟩
          · show (run_ops (apply_op mp op) ops).pool.length ≤ _
            exact h2.1
          · show (run_ops (apply_op mp op) ops).max_size = _
            exact h2.2.trans h1.2
    intro max ops
    have h := main ops (Mempool.empty max) (by simp [Mempool.empty])
    exact h.1.trans (le_of_eq h.2)
  · intro mp n
    show (mp.pool.drop n).length ≤ mp.pool.length
    rw [List.length_drop]
    omega
  · intro mp ids
    exact remove_pool_le ids mp.pool

/-! ## Claim C8 -/

/-- Claim C8 (confirmed): however many times `abort()` was called before the
round, `mine()` clears the cancellation signal at round start, records the
freshly sampled `tau` of this round, and — absent an abort during the round —
runs to its deadline, returns `True` with outcome `mined`, and leaves the
event clear; `abort()` itself is idempotent and callable at any time. -/
theorem c8_fresh_round (m : Miner) (k : ℕ) (_hk : 1 ≤ k) (tau : ℚ) :
    ((abort_iter k m).mine tau false).2 = true ∧
    ((abort_iter k m).mine tau false).1.last_tau = some tau ∧
    ((abort_iter k m).mine tau false).1.abort_event = false ∧
    ((abort_iter k m).mine tau false).1.last_outcome = some MineOutcome.mined ∧
    Miner.abort (Miner.abort m) = Miner.abort m := by
  refine ⟨?_, ?_, ?_, ?_, ?_⟩ <;> simp [Miner.mine, Miner.abort]

/-- Claim C8 witness: one prior `abort()` on a concrete miner, then an
unaborted round, returns `True`. -/
theorem c8_witness : ((abort_iter 1 minerM).mine 5 false).2 = true :=
  (c8_fresh_round minerM 1 (by decide) 5).1

/-! ## Claim C9 -/

/-- Claim C9 (confirmed): for a block whose transactions all carry a
signature, `from_dict(to_dict(b))` preserves `prev_hash`, `timestamp`,
`merkle` and `hash` — the wire values are copied verbatim with no
recomputation or consistency check — and each reconstructed transaction
agrees with the original on `sender_pk`, `receiver_addr`, `data`,
`signature` and `txid`. -/
theorem c9_roundtrip (b : Block) (now : ℚ)
    (_hs : ∀ tx ∈ b.transactions, tx.signature.isSome) :
    (roundtrip b now).prev_hash = b.prev_hash ∧
    (roundtrip b now).timestamp = b.timestamp ∧
    (roundtrip b now).merkle = b.merkle ∧
    (roundtrip b now).hash = b.hash ∧
    (roundtrip b now).transactions.length = b.transactions.length ∧
    (∀ i, i < b.transactions.length →
      ((roundtrip b now).transactions.getD i default).sender_pk =
          (b.transactions.getD i default).sender_pk ∧
      ((roundtrip b now).transactions.getD i default).receiver_addr =
          (b.transactions.getD i default).receiver_addr ∧
      ((roundtrip b now).transactions.getD i default).data =
          (b.transactions.getD i default).data ∧
      ((roundtrip b now).transactions.getD i default).signature =
          (b.transactions.getD i default).signature ∧
      ((roundtrip b now).transactions.getD i default).txid =
          (b.transactions.getD i default).txid) := by
  have htx : (roundtrip b now).transactions =
      b.transactions.map (fun tx => txFromWire (txToWire tx)) := by
    simp [roundtrip, Block.from_dict, Block.to_dict, Block.init, List.map_map]
  refine ⟨rfl, rfl, rfl, rfl, ?_, ?_⟩
  · rw [htx, List.length_map]
  · intro i hi
    have hmap : ((roundtrip b now).transactions.getD i default) =
        txFromWire (txToWire (b.transactions.getD i default)) := by
      rw [htx]
      rw [List.getD_eq_getElem _ _ (by simpa using hi), List.getD_eq_getElem _ _ hi,
        List.getElem_map]
    rw [hmap]
    exact ⟨rfl, rfl, rfl, rfl, rfl⟩

/-- Claim C9 witness: the round trip at a concrete one-transaction block. -/
theorem c9_witness :
    (roundtrip blockB 0).hash = blockB.hash ∧
    (roundtrip blockB 0).transactions.length = blockB.transactions.length :=
  ⟨(c9_roundtrip blockB 0 (by decide)).2.2.2.1,
   (c9_roundtrip blockB 0 (by decide)).2.2.2.2.1⟩
